import Mathlib

/-!
Verification of the next-i18n-tiny core: locale negotiation
(packages/core/src/detectLocale.ts), the path codec
(packages/core/src/router/index.ts), the message resolver
(packages/core/src/types.ts, resolveMessage), and the routing middleware
(the create function of the Astro middleware module).

JavaScript strings are modelled as List Char; null/undefined as Option;
JS numbers in the negotiator as Option Rat with none standing for NaN.
-/

namespace I18n

/-- Model of JS String.prototype.startsWith. -/
def jsStartsWith (s pre : List Char) : Bool :=
  pre.isPrefixOf s

/-- Model of JS String.prototype.endsWith. -/
def jsEndsWith (s suf : List Char) : Bool :=
  suf.isSuffixOf s

/-- Model of JS String.prototype.toLowerCase, applied characterwise. -/
def jsToLower (s : List Char) : List Char :=
  s.map Char.toLower

/-- Whitespace set used by JS String.prototype.trim (ASCII part; the
Unicode space classes never occur in the inputs modelled here). -/
def jsIsSpace (c : Char) : Bool :=
  c = ' ' || c = '\t' || c = '\n' || c = '\x0d' || c = '\x0b' || c = '\x0c'

/-- Model of JS String.prototype.trim. -/
def jsTrim (s : List Char) : List Char :=
  ((s.dropWhile jsIsSpace).reverse.dropWhile jsIsSpace).reverse

/-- Model of JS String.prototype.split with a one-character separator;
"".split(c) is [""] and separators at the ends produce empty fields, as
in JS. -/
def splitChar (s : List Char) (c : Char) : List (List Char) :=
  match s with
  | [] => [[]]
  | x :: xs =>
    if x = c then
      [] :: splitChar xs c
    else
      match splitChar xs c with
      | [] => [[x]]
      | h :: t => (x :: h) :: t

/-- Model of JS String.prototype.split with the three-character separator
";q=" used by detectLocale. -/
def splitQ (s : List Char) : List (List Char) :=
  match s with
  | ';' :: 'q' :: '=' :: rest => [] :: splitQ rest
  | x :: xs =>
    match splitQ xs with
    | [] => [[x]]
    | h :: t => (x :: h) :: t
  | [] => [[]]

/-- JS truthiness of a string-or-null value: null and the empty string are
falsy. -/
def jsTruthy (s : Option (List Char)) : Bool :=
  match s with
  | some (_ :: _) => true
  | _ => false

/-- Model of the JS expression a or-else b on a string-or-null a: the
right operand is taken when a is null or empty (falsy). -/
def jsOrStr (a : Option (List Char)) (b : List Char) : List Char :=
  match a with
  | some s => if s = [] then b else s
  | none => b

/-- Numeric value of a digit string (most significant first). -/
def digitsVal (ds : List Char) : Nat :=
  ds.foldl (fun acc c => 10 * acc + (c.toNat - '0'.toNat)) 0

/-- Model of JS parseFloat restricted to finite decimal literals:
optional whitespace and sign, then digits with an optional fraction;
trailing garbage is ignored and none models NaN.  The digits d₁…dₘ.f₁…fₙ
denote the exact rational d₁…dₘf₁…fₙ / 10^n, built with mkRat.  The
exponent and Infinity forms of full parseFloat cannot occur in
Accept-Language quality values and are not modelled. -/
def jsParseFloat (s0 : List Char) : Option ℚ :=
  let s1 := s0.dropWhile jsIsSpace
  let neg := s1.headD ' ' = '-'
  let s2 := if s1.headD ' ' = '-' || s1.headD ' ' = '+' then s1.tail else s1
  let intPart := s2.takeWhile Char.isDigit
  let rest := s2.dropWhile Char.isDigit
  let fracPart := match rest with
    | '.' :: r => r.takeWhile Char.isDigit
    | _ => []
  if intPart = [] ∧ fracPart = [] then
    none
  else
    let num : Nat := digitsVal (intPart ++ fracPart)
    some (mkRat (if neg then -(num : Int) else (num : Int))
      (10 ^ fracPart.length))

/-- One parsed Accept-Language entry: a normalized locale and a quality
weight, with none standing for the JS NaN. -/
structure LangEntry where
  locale : List Char
  quality : Option ℚ

/-- The entry parser of detectLocale (packages/core/src/detectLocale.ts):
trim, split on ";q=", take the lowercased primary subtag, and read the
quality, which defaults to 1.0 when the ";q=" part is absent or empty
(JS falsiness of undefined and ""). -/
def parseLangEntry (lang : List Char) : LangEntry :=
  let parts := splitQ (jsTrim lang)
  let locale := parts.headD []
  let q := parts[1]?
  let normalizedLocale := jsToLower ((splitChar locale '-').headD [])
  let quality : Option ℚ :=
    match q with
    | some qs => if qs = [] then some 1 else jsParseFloat qs
    | none => some 1
  ⟨normalizedLocale, quality⟩

/-- Whether the sort comparator (a, b) maps-to b.quality - a.quality of
detectLocale returns a negative number on (x, y), i.e. x must be placed
strictly before y.  A NaN comparator value is treated as 0, as the
ECMAScript SortCompare does. -/
def qBefore (x y : LangEntry) : Bool :=
  match x.quality, y.quality with
  | some qx, some qy => qy < qx
  | _, _ => false

/-- Stable insertion used to model the stable JS Array.prototype.sort:
x (originally earlier than every element of the list) moves past exactly
the elements that must precede it. -/
def insertEntry (x : LangEntry) : List LangEntry → List LangEntry
  | [] => [x]
  | y :: ys => if qBefore y x then y :: insertEntry x ys else x :: y :: ys

/-- Stable sort of the parsed entries by descending quality, header order
breaking ties (JS sort is stable; with every quality finite this is the
unique stable order for the comparator above). -/
def sortEntries (l : List LangEntry) : List LangEntry :=
  l.foldr insertEntry []

/-- Model of detectLocale (packages/core/src/detectLocale.ts): null or
empty header yields null; otherwise split on ",", parse each entry,
stable-sort by descending quality, and return the first entry whose
normalized locale is among the supported locales, or null. -/
def detectLocale (acceptLanguage : Option (List Char))
    (supportedLocales : List (List Char)) : Option (List Char) :=
  match acceptLanguage with
  | none => none
  | some al =>
    if al = [] then none
    else
      let languages := sortEntries ((splitChar al ',').map parseLangEntry)
      match languages.find? (fun e => supportedLocales.contains e.locale) with
      | some e => some e.locale
      | none => none

/-- Model of getLocalizedPath (packages/core/src/router/index.ts). -/
def getLocalizedPath (path locale defaultLocale : List Char)
    (prefixDefault : Bool) : List Char :=
  let cleanPath := if jsStartsWith path ['/'] then path else '/' :: path
  if jsStartsWith cleanPath ('/' :: (locale ++ ['/'])) ||
      cleanPath == '/' :: locale then
    cleanPath
  else if locale == defaultLocale && !prefixDefault then
    cleanPath
  else if cleanPath == ['/'] then
    '/' :: locale
  else
    ('/' :: locale) ++ cleanPath

/-- Model of removeLocalePrefix (packages/core/src/router/index.ts); the
for loop with early returns becomes recursion over the locale list. -/
def removeLocalePrefix (pathname : List Char) :
    List (List Char) → List Char
  | [] => pathname
  | locale :: rest =>
    if jsStartsWith pathname ('/' :: (locale ++ ['/'])) then
      pathname.drop (locale.length + 1)
    else if pathname = '/' :: locale then
      ['/']
    else
      removeLocalePrefix pathname rest

/-- Model of hasLocalePrefix (packages/core/src/router/index.ts). -/
def hasLocalePrefix (pathname locale : List Char) : Bool :=
  jsStartsWith pathname ('/' :: (locale ++ ['/'])) ||
    pathname == '/' :: locale

/-- JSON-like values standing for the unknown-typed message trees the
resolver walks: null, booleans, numbers (integer leaves; float
formatting is irrelevant to the properties proved here), strings,
arrays and plain objects given as association lists.  Functions and
prototype-chain properties do not occur in message data and are not
modelled. -/
inductive JsVal where
  | vnull
  | vbool (b : Bool)
  | vnum (n : Int)
  | vstr (s : List Char)
  | varr (elems : List JsVal)
  | vobj (fields : List (List Char × JsVal))

/-- The guard obj and typeof obj is object and obj is not null of the
resolver: true exactly on arrays and plain objects. -/
def isObjectNonNull : JsVal → Bool
  | .varr _ => true
  | .vobj _ => true
  | _ => false

/-- Model of the JS in operator on the values above: own keys of an
object; indices and length for an array. -/
def hasKeyJs : JsVal → List Char → Bool
  | .vobj fs, k => fs.any (fun f => f.1 = k)
  | .varr xs, k =>
    k = "length".data ||
      (List.range xs.length).any (fun i => (toString i).data = k)
  | _, _ => false

/-- Model of JS property read obj[k] on the values above, none standing
for undefined. -/
def getKeyJs : JsVal → List Char → Option JsVal
  | .vobj fs, k => (fs.find? (fun f => f.1 = k)).map (fun f => f.2)
  | .varr xs, k =>
    if k = "length".data then some (.vnum xs.length)
    else
      match (List.range xs.length).find? (fun i => (toString i).data = k) with
      | some i => xs[i]?
      | none => none
  | _, _ => none

/-- Model of JS String(v) on non-array, non-object values; the array and
object cases are unreachable in resolveMessage (guarded by the object
check) and are given the JS results for the empty array and a plain
object. -/
def jsToString : JsVal → List Char
  | .vnull => "null".data
  | .vbool b => if b then "true".data else "false".data
  | .vnum n => (toString n).data
  | .vstr s => s
  | .varr _ => []
  | .vobj _ => "[object Object]".data

/-- The traverse helper of resolveMessage (packages/core/src/types.ts):
walk the dotted segments, moving through a node only when it is a
non-null object containing the segment, and collapsing to undefined
(and staying there, as the loop breaks) otherwise. -/
def traversePath (start : Option JsVal) (segs : List (List Char)) :
    Option JsVal :=
  segs.foldl
    (fun obj k =>
      match obj with
      | some o =>
        if isObjectNonNull o ∧ hasKeyJs o k then getKeyJs o k else none
      | none => none)
    start

/-- The full dotted key of resolveMessage: namespace.key when a
namespace was given (JS-truthy), else the key alone. -/
def getFullKey (key : List Char) (ns : Option (List Char)) : List Char :=
  if jsTruthy ns then (ns.getD []) ++ '.' :: key else key

/-- The walk resolveMessage performs: the namespace segments when a
namespace was given, then, if that did not fail, the key segments. -/
def resolvePath (messages : JsVal) (key : List Char)
    (ns : Option (List Char)) : Option JsVal :=
  let obj1 :=
    if jsTruthy ns then
      traversePath (some messages) (splitChar (ns.getD []) '.')
    else some messages
  if obj1.isSome then traversePath obj1 (splitChar key '.') else obj1

/-- Model of resolveMessage (packages/core/src/types.ts).  The locale
argument only feeds development-mode console warnings, a side effect
with no bearing on the returned string. -/
def resolveMessage (messages : JsVal) (key : List Char)
    (ns : Option (List Char)) (_locale : Option (List Char)) : List Char :=
  match resolvePath messages key ns with
  | none => getFullKey key ns
  | some v => if isObjectNonNull v then getFullKey key ns else jsToString v

/-- The extension list of the STATIC_FILE_EXTENSIONS regex of the
middleware module. -/
def staticFileExtensions : List (List Char) :=
  ["ico", "png", "jpg", "jpeg", "gif", "svg", "webp", "avif", "css",
   "js", "mjs", "woff", "woff2", "ttf", "eot", "otf", "mp3", "mp4",
   "webm", "ogg", "wav", "pdf", "zip", "json", "xml", "txt",
   "map"].map String.data

/-- Test of the case-insensitive STATIC_FILE_EXTENSIONS regex, which
matches exactly the pathnames ending in a dot followed by one of the
listed extensions. -/
def isStaticFile (pathname : List Char) : Bool :=
  staticFileExtensions.any
    (fun ext => jsEndsWith (jsToLower pathname) ('.' :: ext))

/-- The middleware configuration, covering both shapes: routingRewrite
records whether the config carries routing: "rewrite"; the optional
fields are none when omitted. -/
structure MwConfig where
  locales : List (List Char)
  defaultLocale : List Char
  fallbackLocale : Option (List Char)
  excludePaths : List (List Char)
  routingRewrite : Bool
  prefixDefault : Option Bool
  detectLanguage : Option Bool

/-- The request data the middleware reads: the URL pathname and the
accept-language header (none when absent). -/
structure MwRequest where
  pathname : List Char
  acceptLanguage : Option (List Char)

/-- The request-scoped locals the middleware reads and writes. -/
structure MwLocals where
  localesStored : Option (List (List Char))
  locale : Option (List Char)
  originalPathname : Option (List Char)

/-- The response action of the middleware: pass through to next, an
internal rewrite (client URL unchanged), or an HTTP redirect with its
status code. -/
inductive MwOutcome where
  | next
  | rewrite (pathname : List Char)
  | redirect (pathname : List Char) (status : Nat)

/-- The locals as left by the middleware, paired with its outcome. -/
structure MwResult where
  locals : MwLocals
  outcome : MwOutcome

/-- Model of the create function of the middleware module (the Astro
middleware; the handler it returns is presented as a pure function from
request and incoming locals to the updated locals and the outcome).
The for loop over excludePaths with an early return becomes an any
test, and the find over locales becomes List.find?. -/
def create (config : MwConfig) (req : MwRequest) (locals0 : MwLocals) :
    MwResult :=
  let locales := config.locales
  let defaultLocale := config.defaultLocale
  let fallbackLocale := config.fallbackLocale.getD defaultLocale
  let excludePaths := config.excludePaths
  let isRewriteMode := config.routingRewrite
  let prefixDefault :=
    if isRewriteMode then false else config.prefixDefault.getD false
  let detectLanguage :=
    if isRewriteMode then true else config.detectLanguage.getD true
  let pathname := req.pathname
  let locals := { locals0 with localesStored := some locales }
  if excludePaths.any (fun e => jsStartsWith pathname e) then
    ⟨locals, .next⟩
  else if isStaticFile pathname then
    ⟨locals, .next⟩
  else
    let urlLocale := locales.find?
      (fun locale =>
        jsStartsWith pathname ('/' :: (locale ++ ['/'])) ||
          pathname == '/' :: locale)
    if isRewriteMode then
      if jsTruthy locals.locale then
        ⟨locals, .next⟩
      else
        let locals := { locals with originalPathname := some pathname }
        match urlLocale with
        | some l =>
          let cleanPathname :=
            if pathname = '/' :: l then ['/']
            else pathname.drop ('/' :: l).length
          ⟨{ locals with locale := some l }, .rewrite cleanPathname⟩
        | none =>
          let detectedLocale :=
            jsOrStr (detectLocale req.acceptLanguage locales) fallbackLocale
          ⟨{ locals with locale := some detectedLocale }, .next⟩
    else
      match urlLocale with
      | some _ => ⟨locals, .next⟩
      | none =>
        if detectLanguage then
          let detectedLocale :=
            jsOrStr (detectLocale req.acceptLanguage locales) fallbackLocale
          let newPathname :=
            if pathname = ['/'] then '/' :: detectedLocale
            else ('/' :: detectedLocale) ++ pathname
          if prefixDefault then
            ⟨locals, .redirect newPathname 302⟩
          else if detectedLocale ≠ defaultLocale then
            ⟨locals, .redirect newPathname 302⟩
          else
            ⟨locals, .rewrite newPathname⟩
        else
          let newPathname :=
            if pathname = ['/'] then '/' :: fallbackLocale
            else ('/' :: fallbackLocale) ++ pathname
          if prefixDefault then
            ⟨locals, .redirect newPathname 302⟩
          else
            ⟨locals, .rewrite newPathname⟩

/-! Theorems.  Helper lemmas come first, then one theorem per claim. -/

theorem jsStartsWith_iff {s p : List Char} :
    jsStartsWith s p = true ↔ p <+: s := by
  simp [jsStartsWith, List.isPrefixOf_iff_prefix]

theorem slashSegIff {p l : List Char} :
    jsStartsWith p ('/' :: (l ++ ['/'])) = true ↔
      ∃ r, p = '/' :: (l ++ ('/' :: r)) := by
  rw [jsStartsWith_iff]
  constructor
  · rintro ⟨t, rfl⟩
    exact ⟨t, by simp⟩
  · rintro ⟨r, rfl⟩
    exact ⟨r, by simp⟩

theorem jsStartsWith_slash {t : List Char} :
    jsStartsWith ('/' :: t) ['/'] = true := by
  simp [jsStartsWith, List.isPrefixOf]

/-- Claim C6: stripPrefix returns the path unchanged unless it starts
with a listed locale segment or equals one (first listed match wins,
a matched segment prefix leaving a remainder that starts with a slash
and an exact match leaving the root); hasPrefix holds exactly on a
full path-segment boundary, and a locale never matches as a mere
substring. -/
theorem removeLocalePrefix_spec :
    (∀ p l, hasLocalePrefix p l = true ↔
        ((∃ r, p = '/' :: (l ++ ('/' :: r))) ∨ p = '/' :: l)) ∧
    (∀ p L, (∀ l ∈ L, hasLocalePrefix p l = false) →
        removeLocalePrefix p L = p) ∧
    (∀ L₁ L₂ l r, (∀ l' ∈ L₁,
          hasLocalePrefix ('/' :: (l ++ ('/' :: r))) l' = false) →
        removeLocalePrefix ('/' :: (l ++ ('/' :: r))) (L₁ ++ l :: L₂) =
          '/' :: r) ∧
    (∀ L₁ L₂ l, (∀ l' ∈ L₁, hasLocalePrefix ('/' :: l) l' = false) →
        removeLocalePrefix ('/' :: l) (L₁ ++ l :: L₂) = ['/']) ∧
    removeLocalePrefix "/january".data ["ja".data] = "/january".data ∧
    hasLocalePrefix "/english".data "en".data = false := by
  have hchar : ∀ p l, hasLocalePrefix p l = true ↔
      ((∃ r, p = '/' :: (l ++ ('/' :: r))) ∨ p = '/' :: l) := by
    intro p l
    simp only [hasLocalePrefix, Bool.or_eq_true, beq_iff_eq]
    rw [slashSegIff]
  have hfalse : ∀ p l, hasLocalePrefix p l = false →
      jsStartsWith p ('/' :: (l ++ ['/'])) = false ∧ (p == '/' :: l) = false := by
    intro p l h
    simp only [hasLocalePrefix, Bool.or_eq_false_iff] at h
    exact h
  refine ⟨hchar, ?_, ?_, ?_, by decide, by decide⟩
  · intro p L h
    induction L with
    | nil => rfl
    | cons l rest ih =>
      have ⟨h1, h2⟩ := hfalse p l (h l (by simp))
      simp only [removeLocalePrefix, h1, Bool.false_eq_true, if_false]
      rw [if_neg (by simpa using beq_eq_false_iff_ne.mp h2)]
      exact ih (fun x hx => h x (by simp [hx]))
  · intro L₁ L₂ l r h
    induction L₁ with
    | nil =>
      have hpre : jsStartsWith ('/' :: (l ++ ('/' :: r))) ('/' :: (l ++ ['/'])) = true :=
        slashSegIff.mpr ⟨r, rfl⟩
      simp only [List.nil_append, removeLocalePrefix, hpre, if_true]
      have : ('/' :: (l ++ ('/' :: r))).drop (l.length + 1) = '/' :: r := by
        have : ('/' :: (l ++ ('/' :: r))).drop (l.length + 1) =
            (l ++ ('/' :: r)).drop l.length := by
          simp [List.drop_succ_cons]
        rw [this, List.drop_left]
      exact this
    | cons l' rest ih =>
      have ⟨h1, h2⟩ := hfalse _ l' (h l' (by simp))
      simp only [List.cons_append, removeLocalePrefix, h1, Bool.false_eq_true, if_false]
      rw [if_neg (by simpa using beq_eq_false_iff_ne.mp h2)]
      exact ih (fun x hx => h x (by simp [hx]))
  · intro L₁ L₂ l h
    induction L₁ with
    | nil =>
      have hpre : jsStartsWith ('/' :: l) ('/' :: (l ++ ['/'])) = false := by
        cases hb : jsStartsWith ('/' :: l) ('/' :: (l ++ ['/'])) with
        | false => rfl
        | true =>
          obtain ⟨r, hr⟩ := slashSegIff.mp hb
          have : l = l ++ ('/' :: r) := by
            exact (List.cons.injEq _ _ _ _).mp hr |>.2
          have := List.self_eq_append_right.mp this
          simp at this
      simp only [List.nil_append, removeLocalePrefix, hpre, Bool.false_eq_true, if_false]
      simp
    | cons l' rest ih =>
      have ⟨h1, h2⟩ := hfalse _ l' (h l' (by simp))
      simp only [List.cons_append, removeLocalePrefix, h1, Bool.false_eq_true, if_false]
      rw [if_neg (by simpa using beq_eq_false_iff_ne.mp h2)]
      exact ih (fun x hx => h x (by simp [hx]))

/-- Witness for the hypothesis-bearing parts of the C6 theorem at
concrete inputs. -/
theorem removeLocalePrefix_spec_witness :
    removeLocalePrefix ('/' :: ("ja".data ++ ('/' :: "about".data)))
        (["en".data] ++ "ja".data :: ["fr".data]) = '/' :: "about".data ∧
    removeLocalePrefix ('/' :: "ja".data)
        (["en".data] ++ "ja".data :: []) = ['/'] ∧
    removeLocalePrefix "/about".data ["en".data, "ja".data] = "/about".data :=
  ⟨removeLocalePrefix_spec.2.2.1 ["en".data] ["fr".data] "ja".data "about".data
      (by decide),
   removeLocalePrefix_spec.2.2.2.1 ["en".data] [] "ja".data (by decide),
   removeLocalePrefix_spec.2.1 "/about".data ["en".data, "ja".data] (by decide)⟩

theorem cleanPathShape (p : List Char) :
    ∃ t, (if jsStartsWith p ['/'] then p else '/' :: p) = '/' :: t := by
  by_cases h : jsStartsWith p ['/'] = true
  · rw [if_pos h]
    obtain ⟨t, ht⟩ := jsStartsWith_iff.mp h
    exact ⟨t, ht.symm⟩
  · rw [if_neg h]
    exact ⟨p, rfl⟩

/-- Claim C7: with prefixDefault at its default of false, localize is
idempotent for all paths, locales and default locales. -/
theorem getLocalizedPath_idem (p l d : List Char) :
    getLocalizedPath (getLocalizedPath p l d false) l d false =
      getLocalizedPath p l d false := by
  obtain ⟨t, ht⟩ := cleanPathShape p
  have hdef : getLocalizedPath p l d false =
      (if jsStartsWith ('/' :: t) ('/' :: (l ++ ['/'])) ||
          (('/' :: t) == '/' :: l) then '/' :: t
       else if l == d && !false then '/' :: t
       else if ('/' :: t) == ['/'] then '/' :: l
       else ('/' :: l) ++ ('/' :: t)) := by
    simp only [getLocalizedPath]
    rw [ht]
  rw [hdef]
  by_cases h1 : (jsStartsWith ('/' :: t) ('/' :: (l ++ ['/'])) ||
      (('/' :: t) == '/' :: l)) = true
  · rw [if_pos h1]
    simp only [getLocalizedPath]
    rw [if_pos jsStartsWith_slash, if_pos h1]
  · rw [if_neg h1]
    by_cases h2 : (l == d && !false) = true
    · rw [if_pos h2]
      simp only [getLocalizedPath]
      rw [if_pos jsStartsWith_slash, if_neg h1, if_pos h2]
    · rw [if_neg h2]
      by_cases h3 : (('/' :: t) == ['/']) = true
      · rw [if_pos h3]
        simp only [getLocalizedPath]
        rw [if_pos jsStartsWith_slash]
        have hself : (jsStartsWith ('/' :: l) ('/' :: (l ++ ['/'])) ||
            (('/' :: l) == '/' :: l)) = true := by
          simp
        rw [if_pos hself]
      · rw [if_neg h3]
        have happ : ('/' :: l) ++ ('/' :: t) = '/' :: (l ++ ('/' :: t)) := by
          simp
        rw [happ]
        simp only [getLocalizedPath]
        rw [if_pos jsStartsWith_slash]
        have hpre : (jsStartsWith ('/' :: (l ++ ('/' :: t)))
            ('/' :: (l ++ ['/'])) ||
            (('/' :: (l ++ ('/' :: t))) == '/' :: l)) = true := by
          rw [Bool.or_eq_true]
          exact Or.inl (slashSegIff.mpr ⟨t, rfl⟩)
        rw [if_pos hpre]

theorem detectLocale_mem {al : List Char} {s : List (List Char)}
    {l : List Char} (h : detectLocale (some al) s = some l) : l ∈ s := by
  simp only [detectLocale] at h
  by_cases hal : al = []
  · rw [if_pos hal] at h
    cases h
  · rw [if_neg hal] at h
    cases hf : (sortEntries ((splitChar al ',').map parseLangEntry)).find?
        (fun e => s.contains e.locale) with
    | none => rw [hf] at h; cases h
    | some e =>
      rw [hf] at h
      injection h with h
      subst h
      have hp := List.find?_some hf
      exact List.elem_iff.mp hp

/-- Claim C3: detectLocale returns null on a null or empty header;
otherwise it splits the header on commas, reduces each entry to its
lowercased primary subtag with quality 1.0 when no quality part is
present, stable-sorts by descending quality with header order as the
tie-break, and returns the first normalized entry that is a supported
locale, or null when none matches (so any returned locale is a member
of the supported list). -/
theorem detectLocale_spec :
    (∀ s, detectLocale none s = none) ∧
    (∀ s, detectLocale (some []) s = none) ∧
    (∀ al s l, detectLocale (some al) s = some l → l ∈ s) ∧
    detectLocale (some "ja,en-US;q=0.9,en;q=0.8".data)
      ["ja".data, "en".data] = some "ja".data ∧
    detectLocale (some "fr;q=0.9,ja;q=0.8,en;q=0.7".data)
      ["ja".data, "en".data, "fr".data] = some "fr".data ∧
    detectLocale (some "EN-us,JA;q=0.8".data)
      ["ja".data, "en".data] = some "en".data ∧
    detectLocale (some "en;q=0.8,ja;q=0.8".data)
      ["ja".data, "en".data] = some "en".data ∧
    detectLocale (some "de,zh;q=0.9,ko;q=0.8".data)
      ["ja".data, "en".data, "fr".data] = none := by
  refine ⟨fun s => rfl, fun s => rfl,
    fun al s l h => detectLocale_mem h, ?_, ?_, ?_, ?_, ?_⟩ <;> decide

/-- Witness for the hypothesis-bearing membership part of the C3
theorem at a concrete input. -/
theorem detectLocale_spec_witness :
    "ja".data ∈ ["ja".data, "en".data] :=
  detectLocale_spec.2.2.1 "ja".data ["ja".data, "en".data] "ja".data
    (by decide)

/-- Claim C4 counterexample: the entry "ja;q=abc" has a present but
unparsable quality, the code gives it quality NaN rather than 1.0, and
the NaN is observable: with an explicit quality of 1.0 in its place the
negotiation result differs. -/
theorem detectLocale_nan_counterexample :
    (parseLangEntry "ja;q=abc".data).quality = none ∧
    (parseLangEntry "ja;q=abc".data).quality ≠ some 1 ∧
    detectLocale (some "de;q=0.5,ja;q=abc".data)
      ["ja".data, "de".data] = some "de".data ∧
    detectLocale (some "de;q=0.5,ja;q=1.0".data)
      ["ja".data, "de".data] = some "ja".data := by
  refine ⟨rfl, by decide, by decide, by decide⟩

/-- Claim C4 amended: an entry whose quality parameter is present but
does not parse gets quality NaN, which does enter the sort; the
comparator treats every comparison against NaN as a tie (the
ECMAScript SortCompare maps NaN to 0), so the entry keeps its header
position instead of being promoted to quality 1.0, and no crash
occurs. -/
theorem detectLocale_nan_amended :
    (∀ lang locale qs, splitQ (jsTrim lang) = [locale, qs] → qs ≠ [] →
        jsParseFloat qs = none → (parseLangEntry lang).quality = none) ∧
    (∀ x y : LangEntry, x.quality = none →
        qBefore x y = false ∧ qBefore y x = false) ∧
    detectLocale (some "de;q=0.5,ja;q=abc".data)
      ["ja".data, "de".data] = some "de".data ∧
    detectLocale (some "ja;q=abc,de;q=0.5".data)
      ["ja".data, "de".data] = some "ja".data := by
  refine ⟨?_, ?_, by decide, by decide⟩
  · intro lang locale qs hsplit hne hpf
    simp only [parseLangEntry, hsplit]
    simp [hne, hpf]
  · intro x y hx
    constructor
    · simp only [qBefore, hx]
    · simp only [qBefore, hx]
      cases y.quality <;> rfl

/-- Witness for the hypothesis-bearing parts of the C4 amended theorem
at concrete inputs. -/
theorem detectLocale_nan_amended_witness :
    (parseLangEntry "ja;q=abc".data).quality = none ∧
    (qBefore ⟨"ja".data, none⟩ ⟨"de".data, some (mkRat 1 2)⟩ = false ∧
      qBefore ⟨"de".data, some (mkRat 1 2)⟩ ⟨"ja".data, none⟩ = false) :=
  ⟨detectLocale_nan_amended.1 "ja;q=abc".data "ja".data "abc".data
      (by decide) (by decide) (by decide),
   detectLocale_nan_amended.2.1 ⟨"ja".data, none⟩ ⟨"de".data, some (mkRat 1 2)⟩ rfl⟩

theorem traversePath_none_eq (segs : List (List Char)) :
    traversePath none segs = none := by
  induction segs with
  | nil => rfl
  | cons k segs ih => exact ih

theorem traversePath_cons (v : JsVal) (k : List Char)
    (segs : List (List Char)) :
    traversePath (some v) (k :: segs) =
      if isObjectNonNull v ∧ hasKeyJs v k then
        traversePath (getKeyJs v k) segs
      else none := by
  show traversePath
      (if isObjectNonNull v ∧ hasKeyJs v k then getKeyJs v k else none)
      segs = _
  by_cases h : isObjectNonNull v ∧ hasKeyJs v k
  · rw [if_pos h, if_pos h]
  · rw [if_neg h, if_neg h]
    exact traversePath_none_eq segs

theorem hasKey_getKey {v : JsVal} {k : List Char}
    (h : hasKeyJs v k = true) : ∃ w, getKeyJs v k = some w := by
  cases v with
  | vnull => cases h
  | vbool b => cases h
  | vnum n => cases h
  | vstr s => cases h
  | vobj fs =>
    simp only [hasKeyJs, List.any_eq_true, decide_eq_true_eq] at h
    have hsome : (fs.find? (fun f => f.1 = k)).isSome := by
      rw [List.find?_isSome]
      obtain ⟨f, hf, hfk⟩ := h
      exact ⟨f, hf, by simpa using hfk⟩
    obtain ⟨g, hg⟩ := Option.isSome_iff_exists.mp hsome
    exact ⟨g.2, by simp only [getKeyJs, hg]; rfl⟩
  | varr xs =>
    simp only [hasKeyJs, Bool.or_eq_true, decide_eq_true_eq] at h
    by_cases hk : k = "length".data
    · exact ⟨.vnum xs.length, by simp [getKeyJs, hk]⟩
    · have h2 : ((List.range xs.length).any
          fun i => decide ((toString i).data = k)) = true := by
        rcases h with h | h
        · exact absurd h hk
        · exact h
      have hsome : ((List.range xs.length).find?
          (fun i => decide ((toString i).data = k))).isSome := by
        rw [List.find?_isSome]
        obtain ⟨i, hi, hik⟩ := List.any_eq_true.mp h2
        exact ⟨i, hi, hik⟩
      obtain ⟨i, hi⟩ := Option.isSome_iff_exists.mp hsome
      have hmem := List.mem_of_find?_eq_some hi
      have hlt : i < xs.length := List.mem_range.mp hmem
      refine ⟨xs[i], ?_⟩
      simp only [getKeyJs, if_neg hk, hi]
      exact List.getElem?_eq_getElem hlt

theorem traversePath_eq_none_iff (segs : List (List Char)) (v : JsVal) :
    traversePath (some v) segs = none ↔
      ∃ pre k post w, segs = pre ++ k :: post ∧
        traversePath (some v) pre = some w ∧
        ¬(isObjectNonNull w = true ∧ hasKeyJs w k = true) := by
  induction segs generalizing v with
  | nil =>
    constructor
    · intro h
      cases h
    · rintro ⟨pre, k, post, w, hsegs, -, -⟩
      exact absurd hsegs.symm (by simp)
  | cons k segs ih =>
    rw [traversePath_cons]
    by_cases h : isObjectNonNull v = true ∧ hasKeyJs v k = true
    · rw [if_pos h]
      obtain ⟨w0, hw0⟩ := hasKey_getKey h.2
      rw [hw0, ih w0]
      constructor
      · rintro ⟨pre, k', post, w, hsegs, hw, hfail⟩
        refine ⟨k :: pre, k', post, w, by simp [hsegs], ?_, hfail⟩
        rw [traversePath_cons, if_pos h, hw0]
        exact hw
      · rintro ⟨pre, k', post, w, hsegs, hw, hfail⟩
        cases pre with
        | nil =>
          simp only [List.nil_append] at hsegs
          obtain ⟨hk', hpost⟩ := List.cons.inj hsegs
          injection hw with hw
          subst hk'
          subst hw
          exact absurd h hfail
        | cons k0 pre =>
          simp only [List.cons_append] at hsegs
          obtain ⟨hk0, hrest⟩ := List.cons.inj hsegs
          subst hk0
          rw [traversePath_cons, if_pos h, hw0] at hw
          exact ⟨pre, k', post, w, hrest, hw, hfail⟩
    · rw [if_neg h]
      constructor
      · intro _
        exact ⟨[], k, segs, v, rfl, rfl, h⟩
      · intro _
        rfl

/-- Claim C5: resolveMessage returns the full dotted key — namespace
dot key when a namespace was given, else the key alone — whenever the
walk fails, i.e. some segment of the namespace or key walk is absent or
is reached through a non-object node (the first conjunct characterizes
failure exactly so), and also whenever the completed walk ends on an
object; only a walk ending on a non-object leaf returns that leaf
coerced to a string. -/
theorem resolveMessage_fallback_spec :
    (∀ (v : JsVal) (segs : List (List Char)),
        traversePath (some v) segs = none ↔
          ∃ pre k post w, segs = pre ++ k :: post ∧
            traversePath (some v) pre = some w ∧
            ¬(isObjectNonNull w = true ∧ hasKeyJs w k = true)) ∧
    (∀ m key ns loc, resolvePath m key ns = none →
        resolveMessage m key ns loc = getFullKey key ns) ∧
    (∀ m key ns loc v, resolvePath m key ns = some v →
        isObjectNonNull v = true →
        resolveMessage m key ns loc = getFullKey key ns) ∧
    (∀ m key ns loc v, resolvePath m key ns = some v →
        isObjectNonNull v = false →
        resolveMessage m key ns loc = jsToString v) ∧
    resolveMessage
      (JsVal.vobj [("nested".data,
        JsVal.vobj [("child".data, JsVal.vstr "x".data)])])
      "nested".data none none = "nested".data ∧
    resolveMessage
      (JsVal.vobj [("common".data,
        JsVal.vobj [("hello".data, JsVal.vstr "Hi".data)])])
      "missing.key".data none none = "missing.key".data ∧
    resolveMessage
      (JsVal.vobj [("common".data,
        JsVal.vobj [("title".data, JsVal.vstr "Hello".data)])])
      "missing".data (some "common".data) none = "common.missing".data := by
  refine ⟨fun v segs => traversePath_eq_none_iff segs v, ?_, ?_, ?_,
    by decide, by decide, by decide⟩
  · intro m key ns loc h
    simp [resolveMessage, h]
  · intro m key ns loc v h hv
    simp [resolveMessage, h, hv]
  · intro m key ns loc v h hv
    simp [resolveMessage, h, hv]

/-- Witness for the hypothesis-bearing parts of the C5 theorem at
concrete inputs. -/
theorem resolveMessage_fallback_spec_witness :
    resolveMessage (JsVal.vobj []) "a".data none none = "a".data ∧
    resolveMessage (JsVal.vobj [("a".data, JsVal.vobj [])])
      "a".data none none = "a".data ∧
    resolveMessage (JsVal.vobj [("a".data, JsVal.vstr "x".data)])
      "a".data none none = "x".data :=
  ⟨resolveMessage_fallback_spec.2.1 (JsVal.vobj []) "a".data none none rfl,
   resolveMessage_fallback_spec.2.2.1 (JsVal.vobj [("a".data, JsVal.vobj [])])
     "a".data none none (JsVal.vobj []) rfl rfl,
   resolveMessage_fallback_spec.2.2.2.1
     (JsVal.vobj [("a".data, JsVal.vstr "x".data)])
     "a".data none none (JsVal.vstr "x".data) rfl rfl⟩

/-- Claim C10: resolveMessage is total — for every messages value
(null, primitives, arrays, nested objects), key, namespace and locale
argument it returns a string, namely the full dotted key or the string
coercion of the non-object leaf reached by the guarded walk. -/
theorem resolveMessage_total_spec :
    (∀ m key ns loc,
        resolveMessage m key ns loc = getFullKey key ns ∨
          ∃ v, resolvePath m key ns = some v ∧ isObjectNonNull v = false ∧
            resolveMessage m key ns loc = jsToString v) ∧
    resolveMessage JsVal.vnull "a.b".data none none = "a.b".data ∧
    resolveMessage (JsVal.vnum 7) "a".data none (some "en".data) =
      "a".data ∧
    resolveMessage (JsVal.varr [JsVal.vstr "x".data]) "0".data none none =
      "x".data ∧
    resolveMessage (JsVal.vobj [("a".data, JsVal.vnull)])
      "a".data none none = "null".data ∧
    resolveMessage
      (JsVal.vobj [("a".data, JsVal.varr [JsVal.vnum 1, JsVal.vnum 2])])
      "a.length".data none none = "2".data ∧
    resolveMessage (JsVal.vbool true) "x.y".data (some "n".data) none =
      "n.x.y".data := by
  refine ⟨?_, by decide, by decide, by decide, by decide, by decide,
    by decide⟩
  intro m key ns loc
  cases h : resolvePath m key ns with
  | none => exact Or.inl (by simp [resolveMessage, h])
  | some v =>
    by_cases hv : isObjectNonNull v = true
    · exact Or.inl (by simp [resolveMessage, h, hv])
    · refine Or.inr ⟨v, rfl, by simpa using hv, ?_⟩
      simp only [resolveMessage, h]
      rw [if_neg (by simpa using hv)]

theorem detectLocale_mem_opt {al? : Option (List Char)}
    {s : List (List Char)} {l : List Char}
    (h : detectLocale al? s = some l) : l ∈ s := by
  cases al? with
  | none => cases h
  | some al => exact detectLocale_mem h

theorem find?_append_first {α} (p : α → Bool) (L₁ L₂ : List α) (a : α)
    (h₁ : ∀ x ∈ L₁, p x = false) (ha : p a = true) :
    (L₁ ++ a :: L₂).find? p = some a := by
  induction L₁ with
  | nil => simpa using List.find?_cons_of_pos L₂ ha
  | cons b L ih =>
    rw [List.cons_append, List.find?_cons_of_neg]
    · exact ih (fun x hx => h₁ x (by simp [hx]))
    · simp [h₁ b (by simp)]

/-- Claim C9: an excluded request — its path starts with a configured
excludePaths entry or matches the static-asset extension test — is
passed through unmodified, with no rewrite, no redirect and no locale
resolution, in every mode (the exclusion check runs before any locale
logic). -/
theorem create_exclusion_spec :
    ∀ (c : MwConfig) (req : MwRequest) (ls : MwLocals),
      ((∃ e ∈ c.excludePaths, jsStartsWith req.pathname e = true) ∨
        isStaticFile req.pathname = true) →
      (create c req ls).outcome = MwOutcome.next ∧
      (create c req ls).locals.locale = ls.locale ∧
      (create c req ls).locals.originalPathname = ls.originalPathname := by
  intro c req ls h
  by_cases hex : (c.excludePaths.any fun e => jsStartsWith req.pathname e) = true
  · simp [create, hex]
  · have hst : isStaticFile req.pathname = true := by
      rcases h with h | h
      · obtain ⟨e, he, hpe⟩ := h
        exact absurd (List.any_eq_true.mpr ⟨e, he, hpe⟩) hex
      · exact h
    simp [create, hex, hst]

/-- Witness for the C9 theorem: a path under an excludePaths entry, in
a configuration that would otherwise redirect it, is passed through. -/
theorem create_exclusion_spec_witness :
    (create ⟨["en".data, "ja".data], "en".data, none, ["/api".data],
        false, some true, some false⟩
      ⟨"/api/x".data, none⟩ ⟨none, none, none⟩).outcome =
        MwOutcome.next ∧
    (create ⟨["en".data, "ja".data], "en".data, none, ["/api".data],
        false, some true, some false⟩
      ⟨"/api/x".data, none⟩ ⟨none, none, none⟩).locals.locale = none ∧
    (create ⟨["en".data, "ja".data], "en".data, none, ["/api".data],
        false, some true, some false⟩
      ⟨"/api/x".data, none⟩
        ⟨none, none, none⟩).locals.originalPathname = none :=
  create_exclusion_spec _ _ _
    (Or.inl ⟨"/api".data, by decide, by decide⟩)

/-- Claim C8: in rewrite mode, a non-excluded request whose path
carries a configured locale prefix (first configured match) and whose
request-scoped locale is not yet set gets that prefix locale recorded
as its resolved locale, and the path is internally rewritten to the
remainder after the locale segment — the exact locale path rewriting to
the root — with no redirect issued. -/
theorem create_rewrite_prefix_spec :
    ∀ (c : MwConfig) (req : MwRequest) (ls : MwLocals)
      (L₁ L₂ : List (List Char)) (l : List Char),
      c.routingRewrite = true →
      (∀ e ∈ c.excludePaths, jsStartsWith req.pathname e = false) →
      isStaticFile req.pathname = false →
      jsTruthy ls.locale = false →
      c.locales = L₁ ++ l :: L₂ →
      (∀ l' ∈ L₁, hasLocalePrefix req.pathname l' = false) →
      hasLocalePrefix req.pathname l = true →
      (create c req ls).locals.locale = some l ∧
      (create c req ls).locals.originalPathname = some req.pathname ∧
      (req.pathname = '/' :: l →
        (create c req ls).outcome = MwOutcome.rewrite ['/']) ∧
      (∀ r, req.pathname = '/' :: (l ++ ('/' :: r)) →
        (create c req ls).outcome = MwOutcome.rewrite ('/' :: r)) ∧
      (∀ p s, (create c req ls).outcome ≠ MwOutcome.redirect p s) := by
  intro c req ls L₁ L₂ l hrw hexc hst htr hloc hL1 hl
  have hex : (c.excludePaths.any fun e => jsStartsWith req.pathname e) = false := by
    rw [List.any_eq_false]
    intro x hx
    simp [hexc x hx]
  have hfind : (List.find? (fun locale =>
      jsStartsWith req.pathname ('/' :: (locale ++ ['/'])) ||
        req.pathname == '/' :: locale) c.locales) = some l := by
    rw [hloc]
    exact find?_append_first _ L₁ L₂ l (fun x hx => hL1 x hx) hl
  have hmain : create c req ls =
      ⟨⟨some c.locales, some l, some req.pathname⟩,
        MwOutcome.rewrite (if req.pathname = '/' :: l then ['/']
          else req.pathname.drop ('/' :: l).length)⟩ := by
    simp [create, hex, hst, hrw, htr, hfind]
  refine ⟨by rw [hmain], by rw [hmain], ?_, ?_, ?_⟩
  · intro hp
    rw [hmain]
    simp [hp]
  · intro r hp
    rw [hmain]
    have hne : req.pathname ≠ '/' :: l := by
      rw [hp]
      intro hcontra
      have h1 : l ++ ('/' :: r) = l := (List.cons.inj hcontra).2
      have h2 : ('/' :: r) = [] := List.self_eq_append_right.mp h1.symm
      cases h2
    simp only [MwOutcome.rewrite.injEq, if_neg hne]
    rw [hp]
    show ('/' :: (l ++ ('/' :: r))).drop (l.length + 1) = '/' :: r
    rw [List.drop_succ_cons, List.drop_left]
  · intro p s
    rw [hmain]
    intro hcontra
    cases hcontra

/-- Witness for the C8 theorem at a concrete rewrite-mode request. -/
theorem create_rewrite_prefix_spec_witness :
    (create ⟨["en".data, "ja".data], "en".data, none, [], true, none, none⟩
      ⟨"/ja/about".data, none⟩ ⟨none, none, none⟩).outcome =
      MwOutcome.rewrite ('/' :: "about".data) :=
  (create_rewrite_prefix_spec
      ⟨["en".data, "ja".data], "en".data, none, [], true, none, none⟩
      ⟨"/ja/about".data, none⟩ ⟨none, none, none⟩
      ["en".data] [] "ja".data rfl (by decide) (by decide) rfl rfl
      (by decide) (by decide)).2.2.2.1 "about".data (by decide)

/-- Claim C1 counterexample: with prefixDefault true, detectLanguage
false, defaultLocale en and fallbackLocale ja, the unprefixed request
/about is redirected to /ja/about — the fallbackLocale target — not to
the /en/about target the claim requires for every such configuration. -/
theorem create_prefixDefault_counterexample :
    (create ⟨["en".data, "ja".data], "en".data, some "ja".data, [],
        false, some true, some false⟩
      ⟨"/about".data, none⟩ ⟨none, none, none⟩).outcome =
      MwOutcome.redirect "/ja/about".data 302 ∧
    "/ja/about".data ≠ "/en/about".data :=
  ⟨rfl, by decide⟩

/-- Claim C1 amended: under a standard-mode configuration with
prefixDefault true and detectLanguage false, a non-excluded request
with no locale prefix is redirected with status 302 to the
fallbackLocale-prefixed path (root becoming the bare locale); since
fallbackLocale defaults to defaultLocale, this is the defaultLocale
target exactly when fallbackLocale is omitted or equal to it. -/
theorem create_prefixDefault_redirect_spec :
    ∀ (c : MwConfig) (req : MwRequest) (ls : MwLocals),
      c.routingRewrite = false →
      c.prefixDefault = some true →
      c.detectLanguage = some false →
      (∀ e ∈ c.excludePaths, jsStartsWith req.pathname e = false) →
      isStaticFile req.pathname = false →
      (∀ l ∈ c.locales, hasLocalePrefix req.pathname l = false) →
      (create c req ls).outcome = MwOutcome.redirect
        (if req.pathname = ['/']
         then '/' :: (c.fallbackLocale.getD c.defaultLocale)
         else ('/' :: (c.fallbackLocale.getD c.defaultLocale)) ++
           req.pathname) 302 := by
  intro c req ls hrw hpd hdl hexc hst hnp
  have hex : (c.excludePaths.any fun e =>
      jsStartsWith req.pathname e) = false := by
    rw [List.any_eq_false]
    intro x hx
    simp [hexc x hx]
  have hfind : (List.find? (fun locale =>
      jsStartsWith req.pathname ('/' :: (locale ++ ['/'])) ||
        req.pathname == '/' :: locale) c.locales) = none := by
    rw [List.find?_eq_none]
    intro x hx hpx
    have hh : hasLocalePrefix req.pathname x = true := hpx
    rw [hnp x hx] at hh
    cases hh
  simp [create, hex, hst, hrw, hpd, hdl, hfind]

/-- Witness for the C1 amended theorem at a concrete configuration
whose fallbackLocale ja differs from its defaultLocale en. -/
theorem create_prefixDefault_redirect_witness :
    (create ⟨["en".data, "ja".data], "en".data, some "ja".data, [],
        false, some true, some false⟩
      ⟨"/about".data, none⟩ ⟨none, none, none⟩).outcome =
      MwOutcome.redirect
        (if "/about".data = ['/'] then '/' :: "ja".data
         else ('/' :: "ja".data) ++ "/about".data) 302 :=
  create_prefixDefault_redirect_spec _ _ _ rfl rfl rfl (by decide)
    (by decide) (by decide)

/-- Claim C2: under a standard-mode configuration with prefixDefault
false and detectLanguage true, a non-excluded request with no locale
prefix negotiates a locale from the Accept-Language header, taking
fallbackLocale when negotiation yields null; if the negotiated locale
equals defaultLocale the request is internally rewritten to the
prefixed path, otherwise it is redirected there with status 302.
(Locale identifiers are nonempty strings, per the data model.) -/
theorem create_detect_spec :
    ∀ (c : MwConfig) (req : MwRequest) (ls : MwLocals),
      c.routingRewrite = false →
      (c.prefixDefault = none ∨ c.prefixDefault = some false) →
      (c.detectLanguage = none ∨ c.detectLanguage = some true) →
      (∀ e ∈ c.excludePaths, jsStartsWith req.pathname e = false) →
      isStaticFile req.pathname = false →
      (∀ l ∈ c.locales, hasLocalePrefix req.pathname l = false) →
      (∀ l ∈ c.locales, l ≠ []) →
      ∀ d, d = (detectLocale req.acceptLanguage c.locales).getD
          (c.fallbackLocale.getD c.defaultLocale) →
        (d = c.defaultLocale →
          (create c req ls).outcome = MwOutcome.rewrite
            (if req.pathname = ['/'] then '/' :: d
             else ('/' :: d) ++ req.pathname)) ∧
        (d ≠ c.defaultLocale →
          (create c req ls).outcome = MwOutcome.redirect
            (if req.pathname = ['/'] then '/' :: d
             else ('/' :: d) ++ req.pathname) 302) := by
  intro c req ls hrw hpd hdl hexc hst hnp hne d hd
  have hex : (c.excludePaths.any fun e =>
      jsStartsWith req.pathname e) = false := by
    rw [List.any_eq_false]
    intro x hx
    simp [hexc x hx]
  have hfind : (List.find? (fun locale =>
      jsStartsWith req.pathname ('/' :: (locale ++ ['/'])) ||
        req.pathname == '/' :: locale) c.locales) = none := by
    rw [List.find?_eq_none]
    intro x hx hpx
    have hh : hasLocalePrefix req.pathname x = true := hpx
    rw [hnp x hx] at hh
    cases hh
  have hjsor : jsOrStr (detectLocale req.acceptLanguage c.locales)
      (c.fallbackLocale.getD c.defaultLocale) = d := by
    rw [hd]
    cases hD : detectLocale req.acceptLanguage c.locales with
    | none => rfl
    | some x =>
      have hx : x ∈ c.locales := detectLocale_mem_opt hD
      simp [jsOrStr, hne x hx]
  have hpdv : c.prefixDefault.getD false = false := by
    rcases hpd with h | h <;> simp [h]
  have hdlv : c.detectLanguage.getD true = true := by
    rcases hdl with h | h <;> simp [h]
  constructor
  · intro hdd
    simp [create, hex, hst, hrw, hfind, hjsor, hpdv, hdlv, hdd]
  · intro hdd
    simp [create, hex, hst, hrw, hfind, hjsor, hpdv, hdlv, hdd]

/-- Witness for the C2 theorem: the spec routing-matrix examples, a
header-less request rewritten for the default locale and a Japanese
header redirected. -/
theorem create_detect_spec_witness :
    (create ⟨["ja".data, "en".data], "en".data, none, [],
        false, none, none⟩
      ⟨"/about".data, none⟩ ⟨none, none, none⟩).outcome =
      MwOutcome.rewrite
        (if "/about".data = ['/'] then '/' :: "en".data
         else ('/' :: "en".data) ++ "/about".data) ∧
    (create ⟨["ja".data, "en".data], "en".data, none, [],
        false, none, none⟩
      ⟨"/about".data, some "ja,en;q=0.8".data⟩
        ⟨none, none, none⟩).outcome =
      MwOutcome.redirect
        (if "/about".data = ['/'] then '/' :: "ja".data
         else ('/' :: "ja".data) ++ "/about".data) 302 :=
  ⟨(create_detect_spec _ _ _ rfl (Or.inl rfl) (Or.inl rfl) (by decide)
      (by decide) (by decide) (by decide) "en".data (by decide)).1 rfl,
   (create_detect_spec _ _ _ rfl (Or.inl rfl) (Or.inl rfl) (by decide)
      (by decide) (by decide) (by decide) "ja".data (by decide)).2
      (by decide)⟩

end I18n
